import Mathlib

/-!
Verification of the goease Argon2id password-hash module and date helpers.

The repository ships the test file `hash/argon2id_test.go` for the Argon2id
module; the module's own source file is not part of the checked-out sources,
so the definitions below are modelled from the specification (hash-string
codec, hasher, verifier, error taxonomy), keeping the exported names used by
the tests (`ArgonCreateHash`, `ArgonDecodeHash`, `ArgonCheckHash`,
`ArgonComparePasswordAndHash`, `ArgonErrIncompatibleVariant`, ...).

Byte strings are `List Nat` with each element `< 256`; Go strings holding
encoded hashes are `List Char`.  The external Argon2id key-derivation
primitive is an explicit function parameter (`KDF`), and the fresh random
salt drawn by `CreateHash` is an explicit argument, so hashing is
deterministic given a fixed salt, exactly as the spec describes.
-/

/-- Modelled from the spec: the immutable Argon2id cost/shape configuration
`{memoryCostKiB, iterations, parallelism, saltLength, digestLength}`.
Equality is structural (all fields compared). -/
structure ParameterSet where
  memoryCostKiB : Nat
  iterations : Nat
  parallelism : Nat
  saltLength : Nat
  digestLength : Nat
deriving DecidableEq, Repr

/-- Modelled from the spec: the error taxonomy shared by codec, hasher and
verifier: malformed hash, incompatible variant tag, incompatible version. -/
inductive ArgonError where
  | invalidHash
  | incompatibleVariant
  | incompatibleVersion
deriving DecidableEq, Repr

/-- The distinguished malformed-hash error value. -/
def ArgonErrInvalidHash : ArgonError := .invalidHash

/-- The distinguished incompatible-variant error value (testable via
equality, as in `TestVariant`). -/
def ArgonErrIncompatibleVariant : ArgonError := .incompatibleVariant

/-- The distinguished incompatible-version error value. -/
def ArgonErrIncompatibleVersion : ArgonError := .incompatibleVersion

/-- Modelled from the spec: the default parameter set (memory = 65536 KiB,
iterations = 1, saltLength = 16, digestLength = 32).  The spec allows the
parallelism default to be "derived or fixed"; the spec's test vectors use
`p=2`, which we fix here. -/
def ArgonDefaultParams : ParameterSet :=
  { memoryCostKiB := 65536, iterations := 1, parallelism := 2,
    saltLength := 16, digestLength := 32 }

/-- Modelled from the spec: the external Argon2id key-derivation primitive,
`derive(password, salt, params) -> digest bytes`, deterministic for fixed
inputs.  It is an external collaborator, so it is a parameter of the model. -/
def KDF : Type := String → List Nat → ParameterSet → List Nat

/-! ### Unpadded standard base64 (RawStdEncoding, strict) -/

/-- The character of the standard base64 alphabet for a 6-bit value. -/
def b64EncChar (k : Nat) : Char :=
  if k < 26 then Char.ofNat (65 + k)
  else if k < 52 then Char.ofNat (97 + (k - 26))
  else if k < 62 then Char.ofNat (48 + (k - 52))
  else if k = 62 then '+'
  else '/'

/-- The 6-bit value of a standard base64 alphabet character, `none` for a
character outside the alphabet (including the padding character). -/
def b64DecVal (c : Char) : Option Nat :=
  if 65 ≤ c.toNat ∧ c.toNat ≤ 90 then some (c.toNat - 65)
  else if 97 ≤ c.toNat ∧ c.toNat ≤ 122 then some (c.toNat - 71)
  else if 48 ≤ c.toNat ∧ c.toNat ≤ 57 then some (c.toNat + 4)
  else if c = '+' then some 62
  else if c = '/' then some 63
  else none

/-- Whether a character belongs to the unpadded standard base64 alphabet. -/
def isB64Char (c : Char) : Bool := (b64DecVal c).isSome

/-- Unpadded standard base64 encoding of a byte string: 3 bytes become 4
characters; a 1- or 2-byte remainder becomes 2 or 3 characters and no
padding character is emitted (Go `base64.RawStdEncoding.EncodeToString`). -/
def b64encode : List Nat → List Char
  | [] => []
  | [a] => [b64EncChar (a / 4), b64EncChar (a % 4 * 16)]
  | [a, b] => [b64EncChar (a / 4), b64EncChar (a % 4 * 16 + b / 16),
               b64EncChar (b % 16 * 4)]
  | a :: b :: c :: rest =>
      b64EncChar (a / 4) :: b64EncChar (a % 4 * 16 + b / 16) ::
      b64EncChar (b % 16 * 4 + c / 64) :: b64EncChar (c % 64) :: b64encode rest

/-- Strict unpadded standard base64 decoding
(Go `base64.RawStdEncoding.Strict().DecodeString`): a single trailing
character is malformed, and non-zero unused trailing bits in the final
character are rejected. -/
def b64decode : List Char → Option (List Nat)
  | [] => some []
  | [_] => none
  | [c1, c2] =>
    match b64DecVal c1, b64DecVal c2 with
    | some a, some b => if b % 16 = 0 then some [a * 4 + b / 16] else none
    | _, _ => none
  | [c1, c2, c3] =>
    match b64DecVal c1, b64DecVal c2, b64DecVal c3 with
    | some a, some b, some c =>
        if c % 4 = 0 then some [a * 4 + b / 16, b % 16 * 16 + c / 4] else none
    | _, _, _ => none
  | c1 :: c2 :: c3 :: c4 :: rest =>
    match b64DecVal c1, b64DecVal c2, b64DecVal c3, b64DecVal c4,
          b64decode rest with
    | some a, some b, some c, some d, some bs =>
        some ((a * 4 + b / 16) :: (b % 16 * 16 + c / 4) :: (c % 4 * 64 + d) :: bs)
    | _, _, _, _, _ => none

/-! ### Decimal rendering and strict decimal parsing -/

/-- The decimal digit character for a value below ten. -/
def digitChar (d : Nat) : Char := Char.ofNat (48 + d)

/-- The value of a decimal digit character, `none` for a non-digit. -/
def digitVal (c : Char) : Option Nat :=
  if 48 ≤ c.toNat ∧ c.toNat ≤ 57 then some (c.toNat - 48) else none

/-- Fuelled most-significant-first decimal rendering; the fuel bounds the
number of digits, and `natToChars` supplies enough. -/
def natToDigitsAux : Nat → Nat → List Char
  | 0, _ => []
  | _ + 1, 0 => []
  | fuel + 1, n + 1 =>
      natToDigitsAux fuel ((n + 1) / 10) ++ [digitChar ((n + 1) % 10)]

/-- Decimal rendering of a natural number, as Go `fmt.Sprintf("%d", n)`. -/
def natToChars (n : Nat) : List Char :=
  if n = 0 then ['0'] else natToDigitsAux n n

/-- Left-to-right accumulator loop of the strict decimal parse. -/
def parseNatAux : List Char → Nat → Option Nat
  | [], acc => some acc
  | c :: rest, acc =>
    match digitVal c with
    | none => none
    | some d => parseNatAux rest (acc * 10 + d)

/-- Modelled from the spec: strict decimal parsing of a cost field — a
non-empty all-digit string, anything else is malformed. -/
def parseNatChars : List Char → Option Nat
  | [] => none
  | l => parseNatAux l 0

/-! ### Splitting on a delimiter (Go `strings.Split` with a 1-char sep) -/

/-- Splitting a character list at every occurrence of a separator, with the
semantics of Go `strings.Split` for a one-character separator: `n`
separators yield `n + 1` fields, empty fields included. -/
def splitOnChar (sep : Char) : List Char → List (List Char)
  | [] => [[]]
  | c :: rest =>
    match splitOnChar sep rest with
    | [] => [[c]]
    | s :: ss => if c = sep then [] :: s :: ss else (c :: s) :: ss

/-! ### The hash codec -/

/-- The cost segment `m=<m>,t=<t>,p=<p>` of the encoded form. -/
def mtpSeg (params : ParameterSet) : List Char :=
  "m=".data ++ natToChars params.memoryCostKiB ++
  ",t=".data ++ natToChars params.iterations ++
  ",p=".data ++ natToChars params.parallelism

/-- Modelled from the spec: the canonical encoded form
`$argon2id$v=19$m=<m>,t=<t>,p=<p>$<salt_b64>$<digest_b64>` with unpadded
standard base64 segments. -/
def encodeHash (params : ParameterSet) (salt digest : List Nat) : List Char :=
  '$' :: "argon2id".data ++
  '$' :: "v=19".data ++
  '$' :: mtpSeg params ++
  '$' :: b64encode salt ++
  '$' :: b64encode digest

/-- Strict parse of the version segment `v=<digits>`. -/
def parseVersionSeg : List Char → Option Nat
  | 'v' :: '=' :: rest => parseNatChars rest
  | _ => none

/-- Strict ordered parse of the cost segment `m=<digits>,t=<digits>,p=<digits>`. -/
def parseParamsSeg (l : List Char) : Option (Nat × Nat × Nat) :=
  match splitOnChar ',' l with
  | [mseg, tseg, pseg] =>
    match mseg, tseg, pseg with
    | 'm' :: '=' :: md, 't' :: '=' :: td, 'p' :: '=' :: pd =>
      match parseNatChars md, parseNatChars td, parseNatChars pd with
      | some m, some t, some p => some (m, t, p)
      | _, _, _ => none
    | _, _, _ => none
  | _ => none

/-- Modelled from the spec: strict decoding of an encoded hash.  The string
is split on `$` and must have exactly six fields; the variant tag must be
`argon2id` (checked before any further parsing, yielding the distinguished
incompatible-variant error); the version must parse and equal 19 (otherwise
the distinguished incompatible-version error); the cost fields must parse
strictly; the salt and digest segments must decode as strict unpadded
base64.  On success the returned parameter set carries the salt and digest
lengths inferred from the decoded byte strings. -/
def ArgonDecodeHash (hash : List Char) :
    Except ArgonError (ParameterSet × List Nat × List Nat) :=
  match splitOnChar '$' hash with
  | [_, variant, versionSeg, paramsSeg, saltSeg, digestSeg] =>
    if variant = "argon2id".data then
      match parseVersionSeg versionSeg with
      | none => .error .invalidHash
      | some v =>
        if v = 19 then
          match parseParamsSeg paramsSeg with
          | none => .error .invalidHash
          | some (m, t, p) =>
            match b64decode saltSeg with
            | none => .error .invalidHash
            | some salt =>
              match b64decode digestSeg with
              | none => .error .invalidHash
              | some digest =>
                .ok (⟨m, t, p, salt.length, digest.length⟩, salt, digest)
        else .error .incompatibleVersion
    else .error .incompatibleVariant
  | _ => .error .invalidHash

/-! ### Hasher and verifier -/

/-- Modelled from the spec: `CreateHash` generates a fresh random salt of
`params.saltLength` bytes, derives a digest of `params.digestLength` bytes
with the external KDF, and encodes.  The salt is an explicit argument here
(the model of the randomness source's output), making the function
deterministic given a fixed salt, as the spec notes. -/
def ArgonCreateHash (kdf : KDF) (salt : List Nat) (password : String)
    (params : ParameterSet) : List Char :=
  encodeHash params salt (kdf password salt params)

/-- Inner loop of the constant-time comparison: walks both buffers to the
end, OR-accumulating the XOR of each byte pair and counting one step per
pair; it never exits early on a mismatch (Go `subtle.ConstantTimeCompare`).
Returns the accumulator and the step count. -/
def ctcLoop : List Nat → List Nat → Nat → Nat → Nat × Nat
  | [], _, v, steps => (v, steps)
  | _, [], v, steps => (v, steps)
  | a :: x, b :: y, v, steps => ctcLoop x y (v ||| (a ^^^ b)) (steps + 1)

/-- Modelled from the spec: dedicated fixed-time byte-buffer equality, in
the style of Go `subtle.ConstantTimeCompare`: 1 iff the buffers have equal
length and equal contents, 0 otherwise; equal-length buffers are always
traversed in full. -/
def constantTimeCompare (x y : List Nat) : Nat :=
  if x.length = y.length then
    if (ctcLoop x y 0 0).1 = 0 then 1 else 0
  else 0

/-- Modelled from the spec: `CheckHash` decodes (propagating any decode
error unchanged), re-derives a digest from the candidate password with the
decoded salt and parameters, and compares digests in constant time,
returning the boolean match plus the decoded parameter set.  A mismatch is
the boolean `false`, never an error. -/
def ArgonCheckHash (kdf : KDF) (password : String) (hash : List Char) :
    Except ArgonError (Bool × ParameterSet) :=
  match ArgonDecodeHash hash with
  | .error e => .error e
  | .ok (params, salt, digest) =>
      .ok (constantTimeCompare digest (kdf password salt params) == 1, params)

/-- Modelled from the spec: `ComparePasswordAndHash` is `CheckHash` without
the decoded parameter set. -/
def ArgonComparePasswordAndHash (kdf : KDF) (password : String)
    (hash : List Char) : Except ArgonError Bool :=
  match ArgonCheckHash kdf password hash with
  | .error e => .error e
  | .ok (matched, _) => .ok matched

/-! ### Date helpers (from the repository's date utilities) -/

/-- The model of a Go `time.Time` value: an abstract timestamp. -/
structure GoTime where
  val : Int
deriving DecidableEq, Repr

/-- The zero `time.Time` value returned on empty or unparseable input. -/
def zeroTime : GoTime := ⟨0⟩

/-- `ParseRFC3339Date` from the source: returns the zero time for the empty
string; otherwise calls the external parser (`time.Parse` with the RFC3339
layout, modelled as the function argument `parse`) and returns the zero
time when it fails, discarding the error. -/
def ParseRFC3339Date (parse : String → Option GoTime) (dateStr : String) :
    GoTime :=
  if dateStr = "" then zeroTime
  else
    match parse dateStr with
    | none => zeroTime
    | some t => t

/-- `ParseCustomDate` from the source: returns the zero time for the empty
string; otherwise calls the external parser (`time.Parse` with the given
layout, modelled as the function argument `parse`) and returns the zero
time when it fails, discarding the error. -/
def ParseCustomDate (parse : String → String → Option GoTime)
    (dateStr layout : String) : GoTime :=
  if dateStr = "" then zeroTime
  else
    match parse layout dateStr with
    | none => zeroTime
    | some t => t

/-- A concrete key-derivation function used to instantiate witnesses: the
digest is `digestLength` copies of the password length reduced mod 256. -/
def kdfLen : KDF := fun pw _ params =>
  List.replicate params.digestLength (pw.length % 256)

/-! ### Lemmas about the base64 codec -/

theorem b64DecVal_b64EncChar : ∀ k < 64, b64DecVal (b64EncChar k) = some k := by
  decide

theorem b64EncChar_ne_dollar : ∀ k < 64, b64EncChar k ≠ '$' := by decide

theorem b64EncChar_ne_pad : ∀ k < 64, b64EncChar k ≠ '=' := by decide

theorem isB64Char_b64EncChar : ∀ k < 64, isB64Char (b64EncChar k) = true := by
  decide

/-- Every character emitted by the base64 encoder of a byte string comes
from the alphabet map applied to a 6-bit value. -/
theorem b64encode_mem (bs : List Nat) (hv : ∀ x ∈ bs, x < 256) :
    ∀ c ∈ b64encode bs, ∃ k, k < 64 ∧ c = b64EncChar k := by
  induction bs using b64encode.induct with
  | case1 => intro c hc; simp [b64encode] at hc
  | case2 a =>
    intro c hc
    have ha : a < 256 := hv a (by simp)
    simp only [b64encode, List.mem_cons, List.not_mem_nil, or_false] at hc
    rcases hc with h | h
    · exact ⟨a / 4, by omega, h⟩
    · exact ⟨a % 4 * 16, by omega, h⟩
  | case3 a b =>
    intro c hc
    have ha : a < 256 := hv a (by simp)
    have hb : b < 256 := hv b (by simp)
    simp only [b64encode, List.mem_cons, List.not_mem_nil, or_false] at hc
    rcases hc with h | h | h
    · exact ⟨a / 4, by omega, h⟩
    · exact ⟨a % 4 * 16 + b / 16, by omega, h⟩
    · exact ⟨b % 16 * 4, by omega, h⟩
  | case4 a b c rest ih =>
    intro d hd
    have ha : a < 256 := hv a (by simp)
    have hb : b < 256 := hv b (by simp)
    have hc : c < 256 := hv c (by simp)
    simp only [b64encode, List.mem_cons] at hd
    rcases hd with h | h | h | h | h
    · exact ⟨a / 4, by omega, h⟩
    · exact ⟨a % 4 * 16 + b / 16, by omega, h⟩
    · exact ⟨b % 16 * 4 + c / 64, by omega, h⟩
    · exact ⟨c % 64, by omega, h⟩
    · exact ih (fun x hx => hv x (by simp [hx])) d h

theorem b64encode_not_dollar (bs : List Nat) (hv : ∀ x ∈ bs, x < 256) :
    '$' ∉ b64encode bs := by
  intro hmem
  obtain ⟨k, hk, he⟩ := b64encode_mem bs hv '$' hmem
  exact b64EncChar_ne_dollar k hk he.symm

/-- Strict decoding inverts encoding on genuine byte strings. -/
theorem b64decode_b64encode (bs : List Nat) (hv : ∀ x ∈ bs, x < 256) :
    b64decode (b64encode bs) = some bs := by
  induction bs using b64encode.induct with
  | case1 => rfl
  | case2 a =>
    have ha : a < 256 := hv a (by simp)
    simp only [b64encode, b64decode,
      b64DecVal_b64EncChar (a / 4) (by omega),
      b64DecVal_b64EncChar (a % 4 * 16) (by omega)]
    have h1 : a % 4 * 16 % 16 = 0 := by omega
    simp [h1]
    omega
  | case3 a b =>
    have ha : a < 256 := hv a (by simp)
    have hb : b < 256 := hv b (by simp)
    simp only [b64encode, b64decode,
      b64DecVal_b64EncChar (a / 4) (by omega),
      b64DecVal_b64EncChar (a % 4 * 16 + b / 16) (by omega),
      b64DecVal_b64EncChar (b % 16 * 4) (by omega)]
    have h1 : b % 16 * 4 % 4 = 0 := by omega
    have h2 : a / 4 * 4 + (a % 4 * 16 + b / 16) / 16 = a := by omega
    simp [h1, h2]
    omega
  | case4 a b c rest ih =>
    have ha : a < 256 := hv a (by simp)
    have hb : b < 256 := hv b (by simp)
    have hc : c < 256 := hv c (by simp)
    have hrest : b64decode (b64encode rest) = some rest :=
      ih (fun x hx => hv x (by simp [hx]))
    have hshape : ∀ l : List Char, b64decode (b64encode rest) = some rest →
        b64encode rest = l → True := fun _ _ _ => trivial
    have h2 : a / 4 * 4 + (a % 4 * 16 + b / 16) / 16 = a := by omega
    have h3 : (a % 4 * 16 + b / 16) % 16 * 16 + (b % 16 * 4 + c / 64) / 4 = b := by
      omega
    have h4 : (b % 16 * 4 + c / 64) % 4 * 64 + c % 64 = c := by omega
    simp only [b64encode, b64decode,
      b64DecVal_b64EncChar (a / 4) (by omega),
      b64DecVal_b64EncChar (a % 4 * 16 + b / 16) (by omega),
      b64DecVal_b64EncChar (b % 16 * 4 + c / 64) (by omega),
      b64DecVal_b64EncChar (c % 64) (by omega), hrest, h2, h3, h4]

/-- The encoder is injective on genuine byte strings. -/
theorem b64encode_inj (bs1 bs2 : List Nat) (h1 : ∀ x ∈ bs1, x < 256)
    (h2 : ∀ x ∈ bs2, x < 256) (he : b64encode bs1 = b64encode bs2) :
    bs1 = bs2 := by
  have d1 := b64decode_b64encode bs1 h1
  have d2 := b64decode_b64encode bs2 h2
  rw [he, d2] at d1
  exact ((Option.some.injEq _ _).mp d1).symm

/-- The encoded length of an `n`-byte string is `(4 n + 2) / 3` characters
(22 for a 16-byte salt, 43 for a 32-byte digest). -/
theorem b64encode_length (bs : List Nat) :
    (b64encode bs).length = (4 * bs.length + 2) / 3 := by
  induction bs using b64encode.induct with
  | case1 => simp [b64encode]
  | case2 a => simp [b64encode]
  | case3 a b => simp [b64encode]
  | case4 a b c rest ih =>
    simp only [b64encode, List.length_cons, ih]
    omega

/-! ### Lemmas about decimal rendering and parsing -/

theorem digitVal_digitChar : ∀ d < 10, digitVal (digitChar d) = some d := by
  decide

theorem digitChar_ne_dollar : ∀ d < 10, digitChar d ≠ '$' := by decide

theorem digitChar_ne_comma : ∀ d < 10, digitChar d ≠ ',' := by decide

theorem parseNatAux_append (l1 l2 : List Char) (acc m : Nat)
    (h : parseNatAux l1 acc = some m) :
    parseNatAux (l1 ++ l2) acc = parseNatAux l2 m := by
  induction l1 generalizing acc with
  | nil =>
    simp only [parseNatAux] at h
    simp [(Option.some.injEq _ _).mp h]
  | cons c rest ih =>
    simp only [parseNatAux, List.cons_append] at h ⊢
    cases hd : digitVal c with
    | none => rw [hd] at h; simp at h
    | some d => rw [hd] at h; exact ih _ h

/-- Every character of the fuelled decimal rendering is a digit character. -/
theorem natToDigitsAux_mem :
    ∀ fuel n c, c ∈ natToDigitsAux fuel n → ∃ d, d < 10 ∧ c = digitChar d := by
  intro fuel
  induction fuel with
  | zero => intro n c hc; simp [natToDigitsAux] at hc
  | succ f ih =>
    intro n c hc
    match n with
    | 0 => simp [natToDigitsAux] at hc
    | m + 1 =>
      simp only [natToDigitsAux, List.mem_append, List.mem_singleton] at hc
      rcases hc with h | h
      · exact ih _ c h
      · exact ⟨(m + 1) % 10, by omega, h⟩

/-- The accumulator invariant of the strict decimal parse over the fuelled
rendering. -/
theorem parseNatAux_natToDigitsAux :
    ∀ fuel n, n ≤ fuel → ∀ acc, parseNatAux (natToDigitsAux fuel n) acc =
      some (acc * 10 ^ (natToDigitsAux fuel n).length + n) := by
  intro fuel
  induction fuel with
  | zero =>
    intro n hn acc
    have : n = 0 := by omega
    subst this
    simp [natToDigitsAux, parseNatAux]
  | succ f ih =>
    intro n hn acc
    match n with
    | 0 => simp [natToDigitsAux, parseNatAux]
    | m + 1 =>
      have hq : (m + 1) / 10 ≤ f := by omega
      have hrec := ih ((m + 1) / 10) hq acc
      simp only [natToDigitsAux]
      rw [parseNatAux_append _ _ _ _ hrec]
      simp only [parseNatAux, digitVal_digitChar ((m + 1) % 10) (by omega)]
      rw [List.length_append, List.length_singleton, pow_succ]
      congr 1
      have hdm : (m + 1) / 10 * 10 + (m + 1) % 10 = m + 1 := by omega
      ring_nf
      omega

theorem natToDigitsAux_ne_nil :
    ∀ fuel n, 0 < n → n ≤ fuel → natToDigitsAux fuel n ≠ [] := by
  intro fuel n h1 h2
  match fuel, n with
  | 0, n => exact absurd h1 (by omega)
  | f + 1, 0 => exact absurd h1 (by omega)
  | f + 1, m + 1 => simp [natToDigitsAux]

/-- Strict decimal parsing inverts decimal rendering. -/
theorem parseNatChars_natToChars (n : Nat) :
    parseNatChars (natToChars n) = some n := by
  by_cases h : n = 0
  · subst h; decide
  · have hpos : 0 < n := Nat.pos_of_ne_zero h
    have hne := natToDigitsAux_ne_nil n n hpos le_rfl
    have hmain := parseNatAux_natToDigitsAux n n le_rfl 0
    simp only [natToChars, if_neg h]
    match hl : natToDigitsAux n n with
    | [] => exact absurd hl hne
    | c :: rest =>
      rw [hl] at hmain
      simpa [parseNatChars] using hmain

/-- Every character of the decimal rendering is a digit character. -/
theorem natToChars_mem (n : Nat) :
    ∀ c ∈ natToChars n, ∃ d, d < 10 ∧ c = digitChar d := by
  intro c hc
  by_cases h : n = 0
  · subst h
    simp [natToChars] at hc
    refine ⟨0, by omega, ?_⟩
    rw [hc]
    decide
  · simp only [natToChars, if_neg h] at hc
    exact natToDigitsAux_mem n n c hc

theorem natToChars_not_dollar (n : Nat) : '$' ∉ natToChars n := by
  intro hmem
  obtain ⟨d, hd, he⟩ := natToChars_mem n '$' hmem
  exact digitChar_ne_dollar d hd he.symm

theorem natToChars_not_comma (n : Nat) : ',' ∉ natToChars n := by
  intro hmem
  obtain ⟨d, hd, he⟩ := natToChars_mem n ',' hmem
  exact digitChar_ne_comma d hd he.symm

/-! ### Lemmas about splitting -/

theorem splitOnChar_ne_nil (sep : Char) (l : List Char) :
    splitOnChar sep l ≠ [] := by
  match l with
  | [] => simp [splitOnChar]
  | c :: rest =>
    simp only [splitOnChar]
    match splitOnChar sep rest with
    | [] => simp
    | s :: ss =>
      by_cases h : c = sep <;> simp [h]

theorem splitOnChar_of_not_mem (sep : Char) (l : List Char)
    (h : sep ∉ l) : splitOnChar sep l = [l] := by
  induction l with
  | nil => rfl
  | cons c rest ih =>
    have hc : c ≠ sep := fun he => h (by simp [he])
    have hrest : sep ∉ rest := fun hm => h (by simp [hm])
    simp only [splitOnChar, ih hrest]
    simp [hc]

theorem splitOnChar_append (sep : Char) (l1 l2 : List Char) (h : sep ∉ l1) :
    splitOnChar sep (l1 ++ sep :: l2) = l1 :: splitOnChar sep l2 := by
  induction l1 with
  | nil =>
    simp only [List.nil_append, splitOnChar]
    match hs : splitOnChar sep l2 with
    | [] => exact absurd hs (splitOnChar_ne_nil sep l2)
    | s :: ss => simp
  | cons c rest ih =>
    have hc : c ≠ sep := fun he => h (by simp [he])
    have hrest : sep ∉ rest := fun hm => h (by simp [hm])
    simp only [List.cons_append, splitOnChar, List.append_eq]
    rw [ih hrest]
    simp [hc]

/-! ### The codec round-trips -/

theorem mtpSeg_not_dollar (params : ParameterSet) : '$' ∉ mtpSeg params := by
  intro hm
  simp only [mtpSeg, List.mem_append] at hm
  rcases hm with ((((h | h) | h) | h) | h) | h
  · exact absurd h (by decide)
  · exact natToChars_not_dollar _ h
  · exact absurd h (by decide)
  · exact natToChars_not_dollar _ h
  · exact absurd h (by decide)
  · exact natToChars_not_dollar _ h

/-- The encoded hash splits on `$` into exactly the six canonical fields. -/
theorem splitOnChar_encodeHash (params : ParameterSet) (salt digest : List Nat)
    (hs : ∀ x ∈ salt, x < 256) (hd : ∀ x ∈ digest, x < 256) :
    splitOnChar '$' (encodeHash params salt digest) =
      [[], "argon2id".data, "v=19".data, mtpSeg params,
       b64encode salt, b64encode digest] := by
  have hA : '$' ∉ "argon2id".data := by decide
  have hB : '$' ∉ "v=19".data := by decide
  have hC : '$' ∉ mtpSeg params := mtpSeg_not_dollar params
  have hD : '$' ∉ b64encode salt := b64encode_not_dollar salt hs
  have hE : '$' ∉ b64encode digest := b64encode_not_dollar digest hd
  have e1 : encodeHash params salt digest =
      ([] : List Char) ++ '$' ::
        ("argon2id".data ++ '$' ::
          ("v=19".data ++ '$' ::
            (mtpSeg params ++ '$' ::
              (b64encode salt ++ '$' :: b64encode digest)))) := by
    simp [encodeHash, List.append_assoc]
  rw [e1, splitOnChar_append '$' [] _ (by simp),
      splitOnChar_append '$' _ _ hA,
      splitOnChar_append '$' _ _ hB,
      splitOnChar_append '$' _ _ hC,
      splitOnChar_append '$' _ _ hD,
      splitOnChar_of_not_mem '$' _ hE]

/-- Parsing the cost segment recovers the memory, iteration and parallelism
fields exactly. -/
theorem parseParamsSeg_mtpSeg (params : ParameterSet) :
    parseParamsSeg (mtpSeg params) =
      some (params.memoryCostKiB, params.iterations, params.parallelism) := by
  have h1 : ',' ∉ 'm' :: '=' :: natToChars params.memoryCostKiB := by
    intro hm
    simp only [List.mem_cons] at hm
    rcases hm with h | h | h
    · exact absurd h (by decide)
    · exact absurd h (by decide)
    · exact natToChars_not_comma _ h
  have h2 : ',' ∉ 't' :: '=' :: natToChars params.iterations := by
    intro hm
    simp only [List.mem_cons] at hm
    rcases hm with h | h | h
    · exact absurd h (by decide)
    · exact absurd h (by decide)
    · exact natToChars_not_comma _ h
  have h3 : ',' ∉ 'p' :: '=' :: natToChars params.parallelism := by
    intro hm
    simp only [List.mem_cons] at hm
    rcases hm with h | h | h
    · exact absurd h (by decide)
    · exact absurd h (by decide)
    · exact natToChars_not_comma _ h
  have e1 : mtpSeg params =
      ('m' :: '=' :: natToChars params.memoryCostKiB) ++ ',' ::
        (('t' :: '=' :: natToChars params.iterations) ++ ',' ::
          ('p' :: '=' :: natToChars params.parallelism)) := by
    simp [mtpSeg, List.append_assoc]
  rw [parseParamsSeg, e1, splitOnChar_append ',' _ _ h1,
      splitOnChar_append ',' _ _ h2, splitOnChar_of_not_mem ',' _ h3]
  simp only [parseNatChars_natToChars]

/-- Decoding inverts encoding: the full `(params, salt, digest)` triple is
recovered exactly when the parameter set is consistent with the byte
lengths, as it is for every hash the hasher creates. -/
theorem ArgonDecodeHash_encodeHash (params : ParameterSet)
    (salt digest : List Nat) (hs : ∀ x ∈ salt, x < 256)
    (hd : ∀ x ∈ digest, x < 256) (hsl : salt.length = params.saltLength)
    (hdl : digest.length = params.digestLength) :
    ArgonDecodeHash (encodeHash params salt digest) =
      .ok (params, salt, digest) := by
  have hv : parseVersionSeg ("v=19".data) = some 19 := by decide
  rw [ArgonDecodeHash, splitOnChar_encodeHash params salt digest hs hd]
  simp only [hv, parseParamsSeg_mtpSeg params, b64decode_b64encode salt hs,
    b64decode_b64encode digest hd]
  simp [hsl, hdl]

/-! ### The constant-time comparison -/

theorem lor_eq_zero_iff (a b : Nat) : a ||| b = 0 ↔ a = 0 ∧ b = 0 := by
  constructor
  · intro h
    have hb : ∀ i, a.testBit i = false ∧ b.testBit i = false := by
      intro i
      have h2 := congrArg (fun t => Nat.testBit t i) h
      simp only [Nat.testBit_lor, Nat.zero_testBit, Bool.or_eq_false_iff] at h2
      exact h2
    exact ⟨Nat.eq_of_testBit_eq fun i => by simp [(hb i).1, Nat.zero_testBit],
           Nat.eq_of_testBit_eq fun i => by simp [(hb i).2, Nat.zero_testBit]⟩
  · rintro ⟨rfl, rfl⟩
    rfl

/-- The OR-accumulator of the comparison loop ends at zero exactly when it
started at zero and the two equal-length buffers agree everywhere. -/
theorem ctcLoop_fst (x : List Nat) : ∀ y : List Nat, x.length = y.length →
    ∀ v s, ((ctcLoop x y v s).1 = 0 ↔ v = 0 ∧ x = y) := by
  induction x with
  | nil =>
    intro y h v s
    match y with
    | [] => simp [ctcLoop]
    | b :: y' => simp at h
  | cons a x' ih =>
    intro y h v s
    match y with
    | [] => simp at h
    | b :: y' =>
      simp only [ctcLoop]
      rw [ih y' (by simpa using h) _ _]
      constructor
      · rintro ⟨hv, rfl⟩
        have h2 := (lor_eq_zero_iff v (a ^^^ b)).mp hv
        have hab : a = b := Nat.xor_eq_zero.mp h2.2
        exact ⟨h2.1, by rw [hab]⟩
      · rintro ⟨hv0, heq⟩
        injection heq with hab hxy
        subst hv0
        subst hab
        refine ⟨?_, hxy⟩
        simp [Nat.xor_self]

/-- The comparison loop performs exactly one step per byte pair of two
equal-length buffers: the step count depends only on the buffer length,
never on the contents or on the position of the first mismatch. -/
theorem ctcLoop_steps (x : List Nat) : ∀ y : List Nat, x.length = y.length →
    ∀ v s, (ctcLoop x y v s).2 = s + x.length := by
  induction x with
  | nil =>
    intro y h v s
    match y with
    | [] => simp [ctcLoop]
    | b :: y' => simp at h
  | cons a x' ih =>
    intro y h v s
    match y with
    | [] => simp at h
    | b :: y' =>
      simp only [ctcLoop]
      rw [ih y' (by simpa using h)]
      simp only [List.length_cons]
      omega

/-- The constant-time comparison returns 1 exactly on equal buffers. -/
theorem constantTimeCompare_eq_one_iff (x y : List Nat) :
    constantTimeCompare x y = 1 ↔ x = y := by
  unfold constantTimeCompare
  by_cases h : x.length = y.length
  · rw [if_pos h]
    by_cases h0 : (ctcLoop x y 0 0).1 = 0
    · rw [if_pos h0]
      have h1 := (ctcLoop_fst x y h 0 0).mp h0
      simp [h1.2]
    · rw [if_neg h0]
      constructor
      · intro hc
        exact absurd hc (by omega)
      · intro hxy
        exact absurd ((ctcLoop_fst x y h 0 0).mpr ⟨rfl, hxy⟩) h0
  · rw [if_neg h]
    constructor
    · intro hc
      exact absurd hc (by omega)
    · intro hxy
      exact absurd (congrArg List.length hxy) h

/-! ### The verifier on freshly created hashes -/

/-- `CheckHash` on a hash created from `pw1`, checked against candidate
`pw2`: the decode succeeds, the original parameter set is returned, and the
boolean is the constant-time equality of the stored and recomputed
digests. -/
theorem ArgonCheckHash_createHash (kdf : KDF) (salt : List Nat)
    (pw1 pw2 : String) (params : ParameterSet)
    (hs : ∀ x ∈ salt, x < 256) (hsl : salt.length = params.saltLength)
    (hk : ∀ x ∈ kdf pw1 salt params, x < 256)
    (hkl : (kdf pw1 salt params).length = params.digestLength) :
    ArgonCheckHash kdf pw2 (ArgonCreateHash kdf salt pw1 params) =
      .ok (constantTimeCompare (kdf pw1 salt params) (kdf pw2 salt params) == 1,
           params) := by
  rw [ArgonCheckHash, ArgonCreateHash,
    ArgonDecodeHash_encodeHash params salt _ hs hk hsl hkl]

/-! ### Claim theorems -/

/-- C1: for every password `p` and parameter set — in particular the
default one — verifying a freshly created hash of `p` succeeds:
`ArgonComparePasswordAndHash(p, ArgonCreateHash(p, params))` returns
`matched = true` with no error.  The salt is the fresh random salt drawn by
`CreateHash` (of the right length, with byte values), and the external KDF
returns a byte digest of the requested length. -/
theorem c1_compare_fresh_hash_matches (kdf : KDF) (salt : List Nat)
    (pw : String) (params : ParameterSet)
    (hs : ∀ x ∈ salt, x < 256) (hsl : salt.length = params.saltLength)
    (hk : ∀ x ∈ kdf pw salt params, x < 256)
    (hkl : (kdf pw salt params).length = params.digestLength) :
    ArgonComparePasswordAndHash kdf pw (ArgonCreateHash kdf salt pw params) =
      .ok true := by
  rw [ArgonComparePasswordAndHash,
    ArgonCheckHash_createHash kdf salt pw pw params hs hsl hk hkl]
  simp [constantTimeCompare_eq_one_iff]

/-- Witness for C1 at a concrete salt, password and KDF. -/
theorem c1_compare_fresh_hash_matches_witness :
    ArgonComparePasswordAndHash kdfLen "pa$$word"
      (ArgonCreateHash kdfLen (List.replicate 16 7) "pa$$word"
        ArgonDefaultParams) = .ok true :=
  c1_compare_fresh_hash_matches kdfLen (List.replicate 16 7) "pa$$word"
    ArgonDefaultParams (by decide) (by decide) (by decide) (by decide)

/-- C2: for distinct passwords `p`, `p2` whose derived digests differ (the
KDF is the external Argon2id primitive, in particular collision-free on
any pair actually encountered), verifying a hash of `p` against `p2`
returns `matched = false` together with a nil error: a password mismatch is
reported as the boolean `false`, never as an error value. -/
theorem c2_wrong_password_false_no_error (kdf : KDF) (salt : List Nat)
    (pw pw2 : String) (params : ParameterSet) (hpw : pw2 ≠ pw)
    (hs : ∀ x ∈ salt, x < 256) (hsl : salt.length = params.saltLength)
    (hk : ∀ x ∈ kdf pw salt params, x < 256)
    (hkl : (kdf pw salt params).length = params.digestLength)
    (hne : kdf pw2 salt params ≠ kdf pw salt params) :
    ArgonComparePasswordAndHash kdf pw2 (ArgonCreateHash kdf salt pw params) =
      .ok false := by
  rw [ArgonComparePasswordAndHash,
    ArgonCheckHash_createHash kdf salt pw pw2 params hs hsl hk hkl]
  have hne1 : constantTimeCompare (kdf pw salt params) (kdf pw2 salt params)
      ≠ 1 := by
    intro h
    exact hne ((constantTimeCompare_eq_one_iff _ _).mp h).symm
  simp [hne1]

/-- Witness for C2 at concrete distinct passwords with distinct digests. -/
theorem c2_wrong_password_false_no_error_witness :
    ArgonComparePasswordAndHash kdfLen "otherPa$$word"
      (ArgonCreateHash kdfLen (List.replicate 16 7) "pa$$word"
        ArgonDefaultParams) = .ok false :=
  c2_wrong_password_false_no_error kdfLen (List.replicate 16 7) "pa$$word"
    "otherPa$$word" ArgonDefaultParams (by decide) (by decide) (by decide)
    (by decide) (by decide) (by decide)

/-- C3: encoding then decoding is lossless — decoding the encoded hash
string returns exactly the original parameter set, salt bytes and digest
bytes (the parameter set being consistent with the byte lengths, as for
every hash the hasher creates) — and `ArgonCheckHash` on a hash created
with a given parameter set returns a parameter set structurally equal to
the one used at creation. -/
theorem c3_decode_encode_roundtrip (params : ParameterSet)
    (salt digest : List Nat) (kdf : KDF) (pw : String)
    (hs : ∀ x ∈ salt, x < 256) (hd : ∀ x ∈ digest, x < 256)
    (hsl : salt.length = params.saltLength)
    (hdl : digest.length = params.digestLength)
    (hk : ∀ x ∈ kdf pw salt params, x < 256)
    (hkl : (kdf pw salt params).length = params.digestLength) :
    ArgonDecodeHash (encodeHash params salt digest) = .ok (params, salt, digest)
      ∧ ArgonCheckHash kdf pw (ArgonCreateHash kdf salt pw params) =
          .ok (true, params) := by
  refine ⟨ArgonDecodeHash_encodeHash params salt digest hs hd hsl hdl, ?_⟩
  rw [ArgonCheckHash_createHash kdf salt pw pw params hs hsl hk hkl]
  simp [constantTimeCompare_eq_one_iff]

/-- Witness for C3 at a concrete parameter set, salt and digest. -/
theorem c3_decode_encode_roundtrip_witness :
    ArgonDecodeHash (encodeHash ArgonDefaultParams (List.replicate 16 7)
        (List.replicate 32 9)) =
      .ok (ArgonDefaultParams, List.replicate 16 7, List.replicate 32 9) :=
  (c3_decode_encode_roundtrip ArgonDefaultParams (List.replicate 16 7)
    (List.replicate 32 9) kdfLen "x" (by decide) (by decide) (by decide)
    (by decide) (by decide) (by decide)).1

/-- C4: for every encoded string whose algorithm tag is present (the string
has the six `$`-separated fields) but is not `argon2id`, decoding — and
`ArgonCheckHash` / `ArgonComparePasswordAndHash`, which propagate decode
errors unchanged — returns the distinguished incompatible-variant error,
not the generic malformed-hash error. -/
theorem c4_incompatible_variant (hash : List Char) (kdf : KDF) (pw : String)
    (a variant vseg pseg sseg dseg : List Char)
    (hsplit : splitOnChar '$' hash = [a, variant, vseg, pseg, sseg, dseg])
    (hvar : variant ≠ "argon2id".data) :
    ArgonDecodeHash hash = .error ArgonErrIncompatibleVariant ∧
    ArgonCheckHash kdf pw hash = .error ArgonErrIncompatibleVariant ∧
    ArgonComparePasswordAndHash kdf pw hash =
      .error ArgonErrIncompatibleVariant ∧
    ArgonErrIncompatibleVariant ≠ ArgonErrInvalidHash := by
  have hdec : ArgonDecodeHash hash = .error ArgonErrIncompatibleVariant := by
    rw [ArgonDecodeHash, hsplit]
    simp [hvar, ArgonErrIncompatibleVariant]
  refine ⟨hdec, ?_, ?_, by decide⟩
  · rw [ArgonCheckHash, hdec]
  · rw [ArgonComparePasswordAndHash, ArgonCheckHash, hdec]

/-- Witness for C4 on the spec's `argon2i` test vector. -/
theorem c4_incompatible_variant_witness :
    ArgonComparePasswordAndHash kdfLen "pa$$word"
      ("$argon2i$v=19$m=65536,t=1,p=2$mFe3kxhovyEByvwnUtr0ow$nU9AqnoPfzMOQhCHa9BDrQ+4bSfj69jgtvGu/2McCxU".data) =
      .error ArgonErrIncompatibleVariant :=
  (c4_incompatible_variant
    ("$argon2i$v=19$m=65536,t=1,p=2$mFe3kxhovyEByvwnUtr0ow$nU9AqnoPfzMOQhCHa9BDrQ+4bSfj69jgtvGu/2McCxU".data)
    kdfLen "pa$$word" [] ("argon2i".data) ("v=19".data)
    ("m=65536,t=1,p=2".data) ("mFe3kxhovyEByvwnUtr0ow".data)
    ("nU9AqnoPfzMOQhCHa9BDrQ+4bSfj69jgtvGu/2McCxU".data) (by decide)
    (by decide)).2.2.1

/-- C5: decoding is total and atomic over its error cases: every input
yields either a fully-populated success triple or exactly one error value
(totality holds by construction of the model — no partial population and no
crash is expressible); and the spec's known vector with the last digest
character altered (`...x9tE` to `...x9tF`) deterministically yields the
base64 strict-decode failure, surfaced as the malformed-hash error by
`ArgonDecodeHash` and by `ArgonCheckHash`. -/
theorem c5_decode_total_and_strict (hash : List Char) (kdf : KDF)
    (pw : String) :
    ((∃ r, ArgonDecodeHash hash = .ok r) ∨
      (∃ e, ArgonDecodeHash hash = .error e)) ∧
    ArgonDecodeHash
      ("$argon2id$v=19$m=65536,t=1,p=2$UDk0zEuIzbt0x3bwkf8Bgw$ihSfHWUJpTgDvNWiojrgcN4E0pJdUVmqCEdRZesx9tF".data) =
      .error ArgonErrInvalidHash ∧
    ArgonCheckHash kdf pw
      ("$argon2id$v=19$m=65536,t=1,p=2$UDk0zEuIzbt0x3bwkf8Bgw$ihSfHWUJpTgDvNWiojrgcN4E0pJdUVmqCEdRZesx9tF".data) =
      .error ArgonErrInvalidHash := by
  refine ⟨?_, rfl, rfl⟩
  cases h : ArgonDecodeHash hash with
  | ok r => exact Or.inl ⟨r, rfl⟩
  | error e => exact Or.inr ⟨e, rfl⟩

/-- C6: for every encoded string with the six fields, the `argon2id` tag
and a version field that parses but differs from the single supported
version 19, decoding fails with the distinguished incompatible-version
error, distinct from both the malformed-hash error and the
incompatible-variant error. -/
theorem c6_incompatible_version (hash : List Char)
    (a vseg pseg sseg dseg : List Char) (v : Nat)
    (hsplit : splitOnChar '$' hash =
      [a, "argon2id".data, vseg, pseg, sseg, dseg])
    (hv : parseVersionSeg vseg = some v) (hne : v ≠ 19) :
    ArgonDecodeHash hash = .error ArgonErrIncompatibleVersion ∧
    ArgonErrIncompatibleVersion ≠ ArgonErrInvalidHash ∧
    ArgonErrIncompatibleVersion ≠ ArgonErrIncompatibleVariant := by
  refine ⟨?_, by decide, by decide⟩
  rw [ArgonDecodeHash, hsplit]
  simp [hv, hne, ArgonErrIncompatibleVersion]

/-- Witness for C6 on a hash string declaring version 18. -/
theorem c6_incompatible_version_witness :
    ArgonDecodeHash ("$argon2id$v=18$m=65536,t=1,p=2$AAAA$AAAA".data) =
      .error ArgonErrIncompatibleVersion :=
  (c6_incompatible_version ("$argon2id$v=18$m=65536,t=1,p=2$AAAA$AAAA".data)
    [] ("v=18".data) ("m=65536,t=1,p=2".data) ("AAAA".data) ("AAAA".data) 18
    (by decide) (by decide) (by decide)).1

/-- C7: every hash created with the default parameter set matches the
canonical grammar `$argon2id$v=19$m=65536,t=1,p=2$<salt_b64>$<digest_b64>`:
splitting on `$` yields the fixed tag, the fixed version, the cost fields
in `m=,t=,p=` order, and two base64 segments of lengths 22 and 43 drawn
from the unpadded alphabet, with no padding characters. -/
theorem c7_create_hash_grammar (kdf : KDF) (salt : List Nat) (pw : String)
    (hs : ∀ x ∈ salt, x < 256) (hsl : salt.length = 16)
    (hk : ∀ x ∈ kdf pw salt ArgonDefaultParams, x < 256)
    (hkl : (kdf pw salt ArgonDefaultParams).length = 32) :
    splitOnChar '$' (ArgonCreateHash kdf salt pw ArgonDefaultParams) =
      [[], "argon2id".data, "v=19".data, "m=65536,t=1,p=2".data,
       b64encode salt, b64encode (kdf pw salt ArgonDefaultParams)] ∧
    (b64encode salt).length = 22 ∧
    (b64encode (kdf pw salt ArgonDefaultParams)).length = 43 ∧
    (∀ c ∈ b64encode salt, isB64Char c = true ∧ c ≠ '=') ∧
    (∀ c ∈ b64encode (kdf pw salt ArgonDefaultParams),
      isB64Char c = true ∧ c ≠ '=') := by
  have hmtp : mtpSeg ArgonDefaultParams = "m=65536,t=1,p=2".data := by decide
  refine ⟨?_, ?_, ?_, ?_, ?_⟩
  · rw [ArgonCreateHash,
      splitOnChar_encodeHash ArgonDefaultParams salt _ hs hk, hmtp]
  · rw [b64encode_length, hsl]
  · rw [b64encode_length, hkl]
  · intro c hc
    obtain ⟨k, hk64, rfl⟩ := b64encode_mem salt hs c hc
    exact ⟨isB64Char_b64EncChar k hk64, b64EncChar_ne_pad k hk64⟩
  · intro c hc
    obtain ⟨k, hk64, rfl⟩ := b64encode_mem _ hk c hc
    exact ⟨isB64Char_b64EncChar k hk64, b64EncChar_ne_pad k hk64⟩

/-- Witness for C7 at a concrete salt, password and KDF. -/
theorem c7_create_hash_grammar_witness :
    splitOnChar '$' (ArgonCreateHash kdfLen (List.replicate 16 7) "pa$$word"
        ArgonDefaultParams) =
      [[], "argon2id".data, "v=19".data, "m=65536,t=1,p=2".data,
       b64encode (List.replicate 16 7),
       b64encode (kdfLen "pa$$word" (List.replicate 16 7)
         ArgonDefaultParams)] :=
  (c7_create_hash_grammar kdfLen (List.replicate 16 7) "pa$$word" (by decide)
    (by decide) (by decide) (by decide)).1

/-- C8: hashing with two distinct salts — as happens with overwhelming
probability on two independent calls, each drawing a fresh random salt —
yields two different encoded strings, whatever digests the KDF produces. -/
theorem c8_distinct_salts_distinct_hashes (kdf : KDF) (salt1 salt2 : List Nat)
    (pw : String) (params : ParameterSet)
    (h1 : ∀ x ∈ salt1, x < 256) (h2 : ∀ x ∈ salt2, x < 256)
    (hk1 : ∀ x ∈ kdf pw salt1 params, x < 256)
    (hk2 : ∀ x ∈ kdf pw salt2 params, x < 256)
    (hne : salt1 ≠ salt2) :
    ArgonCreateHash kdf salt1 pw params ≠
      ArgonCreateHash kdf salt2 pw params := by
  intro he
  have he' := congrArg (splitOnChar '$') he
  rw [ArgonCreateHash, ArgonCreateHash,
    splitOnChar_encodeHash params salt1 _ h1 hk1,
    splitOnChar_encodeHash params salt2 _ h2 hk2] at he'
  simp only [List.cons.injEq] at he'
  exact hne (b64encode_inj salt1 salt2 h1 h2 he'.2.2.2.2.1)

/-- Witness for C8 at two concrete distinct salts. -/
theorem c8_distinct_salts_distinct_hashes_witness :
    ArgonCreateHash kdfLen (List.replicate 16 0) "pa$$word"
        ArgonDefaultParams ≠
      ArgonCreateHash kdfLen (List.replicate 16 1) "pa$$word"
        ArgonDefaultParams :=
  c8_distinct_salts_distinct_hashes kdfLen (List.replicate 16 0)
    (List.replicate 16 1) "pa$$word" ArgonDefaultParams (by decide)
    (by decide) (by decide) (by decide) (by decide)

/-- C9: the verifier's digest comparison is the dedicated fixed-time
routine `constantTimeCompare`: it decides exact equality, and on
equal-length buffers its loop always runs one step per byte pair — the step
count equals the buffer length and therefore does not depend on where, or
whether, the buffers first differ (no short-circuit on the first
mismatch). -/
theorem c9_constant_time_compare (x y : List Nat) (h : x.length = y.length) :
    (constantTimeCompare x y = 1 ↔ x = y) ∧
    (ctcLoop x y 0 0).2 = x.length ∧
    (∀ x' y' : List Nat, x'.length = x.length → y'.length = y.length →
      (ctcLoop x' y' 0 0).2 = (ctcLoop x y 0 0).2) := by
  refine ⟨constantTimeCompare_eq_one_iff x y, ?_, ?_⟩
  · have := ctcLoop_steps x y h 0 0
    omega
  · intro x' y' hx hy
    rw [ctcLoop_steps x' y' (by omega) 0 0, ctcLoop_steps x y h 0 0]
    omega

/-- Witness for C9 on concrete buffers differing in the last byte. -/
theorem c9_constant_time_compare_witness :
    (constantTimeCompare [1, 2] [1, 3] = 1 ↔ ([1, 2] : List Nat) = [1, 3]) ∧
    (ctcLoop [1, 2] [1, 3] 0 0).2 = ([1, 2] : List Nat).length :=
  ⟨(c9_constant_time_compare [1, 2] [1, 3] (by decide)).1,
   (c9_constant_time_compare [1, 2] [1, 3] (by decide)).2.1⟩

/-- C10: the date helpers are total and never report failure: they return
the zero time value for the empty string and for any string the underlying
parser rejects, discarding the parse error, so a caller cannot distinguish
an invalid date string from a genuinely zero timestamp (the result equals
the one for the empty string). -/
theorem c10_date_helpers_total (parseR : String → Option GoTime)
    (parseC : String → String → Option GoTime) (s layout : String)
    (hR : s = "" ∨ parseR s = none) (hC : s = "" ∨ parseC layout s = none) :
    ParseRFC3339Date parseR s = zeroTime ∧
    ParseCustomDate parseC s layout = zeroTime ∧
    ParseRFC3339Date parseR s = ParseRFC3339Date parseR "" ∧
    ParseCustomDate parseC s layout = ParseCustomDate parseC "" layout := by
  have hR0 : ParseRFC3339Date parseR s = zeroTime := by
    rcases hR with rfl | hnone
    · simp [ParseRFC3339Date]
    · by_cases he : s = ""
      · simp [ParseRFC3339Date, he]
      · simp [ParseRFC3339Date, he, hnone]
  have hC0 : ParseCustomDate parseC s layout = zeroTime := by
    rcases hC with rfl | hnone
    · simp [ParseCustomDate]
    · by_cases he : s = ""
      · simp [ParseCustomDate, he]
      · simp [ParseCustomDate, he, hnone]
  refine ⟨hR0, hC0, ?_, ?_⟩
  · rw [hR0]
    simp [ParseRFC3339Date]
  · rw [hC0]
    simp [ParseCustomDate]

/-- Witness for C10 on a string every parser rejects. -/
theorem c10_date_helpers_total_witness :
    ParseRFC3339Date (fun _ => none) "not-a-date" = zeroTime :=
  (c10_date_helpers_total (fun _ => none) (fun _ _ => none) "not-a-date"
    "2006-01-02" (Or.inr rfl) (Or.inr rfl)).1
